import Mathlib

/-!
Formal model of the `file_stats` text-analysis tool (src/file_stats.cpp).

The file content is modelled as a list of bytes (`List Nat`, each < 256 in
practice).  Words are byte strings (`List Nat`).  The frequency table built by
`analyze_file` is an association list from word to count; `std::unordered_map`
guarantees unique keys and an arbitrary iteration order, which the theorems
model by quantifying over permutations of the entry list.
-/

/-- Default-"C"-locale `isupper` table on bytes: ASCII uppercase letters. -/
def c_isupper (b : Nat) : Bool := 65 ≤ b && b ≤ 90

/-- Default-"C"-locale `islower` table on bytes: ASCII lowercase letters. -/
def c_islower (b : Nat) : Bool := 97 ≤ b && b ≤ 122

/-- `isdigit` table: ASCII decimal digits (locale-independent in C). -/
def c_isdigit (b : Nat) : Bool := 48 ≤ b && b ≤ 57

/-- Default-"C"-locale `isalnum` table: ASCII letter or digit. -/
def c_isalnum (b : Nat) : Bool := c_isupper b || c_islower b || c_isdigit b

/-- Default-"C"-locale `tolower` table: fold ASCII uppercase to lowercase. -/
def tolower_c (b : Nat) : Nat := if c_isupper b then b + 32 else b

/-- The `<cctype>` character-classification tables of the global C locale
that is in effect while the program runs.  `main` calls
`std::setlocale(LC_ALL, "")` before any analysis, which installs the locale
named by the environment, so `std::isalnum` and `std::tolower` consult
whatever tables that locale provides; the analysis is therefore
parameterized over them. -/
structure CharClass where
  isalnum : Nat → Bool
  tolower : Nat → Nat
deriving Inhabited

/-- The ctype tables of the default "C"/"POSIX" locale (the locale installed
when the environment names no other): `isalnum` and `tolower` are the fixed
ASCII tables. -/
def ctypeC : CharClass := ⟨c_isalnum, tolower_c⟩

/-- The relevant fragment of the ctype tables of an ISO-8859-1 environment
locale (e.g. `LANG=en_US.iso88591`): in addition to the ASCII letters and
digits, the Latin-1 letters 0xC0..0xFF — excluding the multiplication sign
0xD7 and the division sign 0xF7 — are alphabetic, and the uppercase ones
among them fold to lowercase by adding 32. -/
def ctypeLatin1 : CharClass :=
  ⟨fun b => c_isalnum b || (192 ≤ b && b ≤ 255 && !(b == 215) && !(b == 247)),
   fun b => if c_isupper b || (192 ≤ b && b ≤ 222 && !(b == 215)) then b + 32 else b⟩

/-- `is_word_char` from file_stats.cpp: `std::isalnum(ch) != 0` on an
unsigned-char byte, under the ctype tables of the installed global locale. -/
def is_word_char (loc : CharClass) (b : Nat) : Bool := loc.isalnum b

/-- Modelled from the spec (glossary): a word character is a byte matching
A-Z, a-z or 0-9; all other bytes are separators. -/
def specWordChar (b : Nat) : Bool :=
  ((65 ≤ b) && (b ≤ 90)) || ((97 ≤ b) && (b ≤ 122)) || ((48 ≤ b) && (b ≤ 57))

/-- The per-character folding done while building a token:
`if (!conf.case_sensitive) c = tolower(c)`, under the installed locale. -/
def fold_char (loc : CharClass) (case_sensitive : Bool) (b : Nat) : Nat :=
  if case_sensitive then b else loc.tolower b

/-- `++st.freq[token]` on the association-list model of `std::unordered_map`:
increment the count of `w`, inserting it with count 1 if absent. -/
def bump : List (List Nat × Nat) → List Nat → List (List Nat × Nat)
  | [], w => [(w, 1)]
  | (x, c) :: rest, w => if x = w then (x, c + 1) :: rest else (x, c) :: bump rest w

/-- Running word/frequency state of the scan (`st.words` and `st.freq`). -/
structure ScanSt where
  words : Nat
  freq : List (List Nat × Nat)
deriving DecidableEq

/-- The inner byte loop of `analyze_file` over one line, carrying the current
token buffer: word characters are (folded and) appended to the token; any
other byte flushes a pending non-empty token; the trailing token is flushed at
end of line. -/
def scanLine (loc : CharClass) (cs : Bool) : List Nat → List Nat → ScanSt → ScanSt
  | [], token, st =>
      if token = [] then st
      else { words := st.words + 1, freq := bump st.freq token }
  | b :: rest, token, st =>
      if is_word_char loc b then
        scanLine loc cs rest (token ++ [fold_char loc cs b]) st
      else if token = [] then
        scanLine loc cs rest token st
      else
        scanLine loc cs rest [] { words := st.words + 1, freq := bump st.freq token }

/-- The `while (std::getline(in, line))` loop: process each line in turn,
starting every line with an empty token buffer. -/
def analyze_lines (loc : CharClass) (cs : Bool) : List (List Nat) → ScanSt → ScanSt
  | [], st => st
  | l :: ls, st => analyze_lines loc cs ls (scanLine loc cs l [] st)

/-- `std::getline` splitting of the raw byte stream: a line is a maximal run
of bytes up to a line feed (byte 10), the line feed being consumed; a final
run without a terminating line feed still yields a line iff it is non-empty. -/
def splitLinesAux : List Nat → List Nat → List (List Nat)
  | [], cur => if cur = [] then [] else [cur]
  | b :: rest, cur =>
      if b = 10 then cur :: splitLinesAux rest []
      else splitLinesAux rest (cur ++ [b])

/-- Split a whole file content into its `getline` lines. -/
def splitLines (bs : List Nat) : List (List Nat) := splitLinesAux bs []

/-- The binary-mode fallback of the byte counter: read 16 KB chunks and sum
`gcount()` until nothing more can be read. -/
def readAllBytes : List Nat → Nat
  | [] => 0
  | b :: rest =>
      min 16384 (b :: rest).length + readAllBytes ((b :: rest).drop 16384)
termination_by l => l.length
decreasing_by simp [List.length_drop]; omega

/-- `std::filesystem::file_size` with its error fallback: use the metadata
size when the query succeeds, otherwise re-read the file in binary mode and
sum the bytes actually read.  The metadata query is modelled as an oracle
`Option Nat`. -/
def file_size_bytes (content : List Nat) (sizeQuery : Option Nat) : Nat :=
  match sizeQuery with
  | some n => n
  | none => readAllBytes content

/-- Aggregated statistics produced by the analyzer (`struct Stats`). -/
structure Stats where
  lines : Nat
  words : Nat
  bytes : Nat
  freq : List (List Nat × Nat)
deriving DecidableEq

/-- `analyze_file` on an openable file: count lines via the getline loop,
tokenize each line, and measure the byte size independently of the scan. -/
def analyze_file (content : List Nat) (loc : CharClass) (cs : Bool)
    (sizeQuery : Option Nat) : Stats :=
  let ls := splitLines content
  let st := analyze_lines loc cs ls ⟨0, []⟩
  { lines := ls.length
    words := st.words
    bytes := file_size_bytes content sizeQuery
    freq := st.freq }

/-- `std::string` operator `<`: strict byte-lexicographic order
(a proper prefix is smaller). -/
def wordLt : List Nat → List Nat → Bool
  | [], [] => false
  | [], _ :: _ => true
  | _ :: _, [] => false
  | a :: as, b :: bs =>
      if a < b then true else if b < a then false else wordLt as bs

/-- The comparator lambda of `top_k`: entry `a` ranks strictly before `b`
iff it has a larger count, or an equal count and a lexicographically smaller
word. -/
def rankCmp (a b : List Nat × Nat) : Bool :=
  if a.2 ≠ b.2 then decide (b.2 < a.2) else wordLt a.1 b.1

/-- The non-strict sort relation induced by `rankCmp`:
`a` may be placed no later than `b`. -/
def rankLe (a b : List Nat × Nat) : Prop := rankCmp b a = false

instance rankLe_dec : DecidableRel rankLe := fun a b => by
  unfold rankLe; infer_instance

/-- The strict ranking rule of the spec: count descending, ties broken by
word ascending in byte-lexicographic order. -/
def rankStrict (a b : List Nat × Nat) : Prop :=
  b.2 < a.2 ∨ (a.2 = b.2 ∧ wordLt a.1 b.1 = true)

/-- `top_k` from file_stats.cpp: order the map entries by `rankCmp` and keep
the first `k`.  (The C++ code partially sorts the first `min k n` positions
and then resizes to `k`; with the strict weak order `rankCmp` this equals
sorting the whole list by the induced relation `rankLe` and taking `k`.) -/
def top_k (freq : List (List Nat × Nat)) (k : Nat) : List (List Nat × Nat) :=
  (List.insertionSort rankLe freq).take k

/-- Total count mass stored in a frequency table. -/
def sumCounts (freq : List (List Nat × Nat)) : Nat := (freq.map Prod.snd).sum

/-- The tokens that the scan of one line flushes, given the pending token
buffer: a functional mirror of `scanLine` that records the flushed tokens
instead of counting them. -/
def tokensAux (loc : CharClass) (cs : Bool) : List Nat → List Nat → List (List Nat)
  | [], token => if token = [] then [] else [token]
  | b :: rest, token =>
      if is_word_char loc b then tokensAux loc cs rest (token ++ [fold_char loc cs b])
      else if token = [] then tokensAux loc cs rest token
      else token :: tokensAux loc cs rest []

/-- The tokens of one line (maximal runs of word characters, case-folded when
`cs` is false). -/
def tokens (loc : CharClass) (cs : Bool) (line : List Nat) : List (List Nat) :=
  tokensAux loc cs line []

/-- Bytes of a string literal, for concrete scenarios. -/
def strBytes (s : String) : List Nat := s.data.map Char.toNat

/-- CLI configuration (`struct Config`). -/
structure Config where
  input_path : String
  json_path : String
  topN : Nat
  case_sensitive : Bool
deriving DecidableEq

/-- Result of `std::stoul`: a value, or one of its two exception kinds. -/
inductive StoulResult where
  | ok (n : Nat)
  | invalid
  | outOfRange
deriving DecidableEq

/-- C-locale `isspace` on a character. -/
def c_isspace (c : Char) : Bool :=
  (c.toNat == 32) || (c.toNat == 9) || (c.toNat == 10) ||
    (c.toNat == 11) || (c.toNat == 12) || (c.toNat == 13)

/-- Decimal value of a digit run. -/
def digitsValue (cs : List Char) : Nat :=
  cs.foldl (fun acc c => acc * 10 + (c.toNat - 48)) 0

/-- `std::stoul(s)` in base 10: skip leading whitespace, accept an optional
sign, read the longest digit run.  No digits raise `invalid_argument`; a
value beyond `ULONG_MAX` raises `out_of_range`; a minus sign negates the
value in the 64-bit unsigned result type (wrapping). -/
def stoul (s : String) : StoulResult :=
  let cs := s.data.dropWhile c_isspace
  let signed : Bool × List Char :=
    match cs with
    | c :: rest =>
        if c = '-' then (true, rest)
        else if c = '+' then (false, rest)
        else (false, cs)
    | [] => (false, cs)
  let digits := signed.2.takeWhile Char.isDigit
  if digits = [] then .invalid
  else
    let v := digitsValue digits
    if 2 ^ 64 ≤ v then .outOfRange
    else .ok (if signed.1 then (2 ^ 64 - v) % 2 ^ 64 else v)

/-- Outcome of `parse_args`: help requested (process exits 0), invalid usage
(`false` is returned, main prints help and exits 1), an uncaught exception
escaping `std::stoul` (the call sits outside main's try block), or a parsed
configuration. -/
inductive ArgParse where
  | help
  | usage
  | crash
  | ok (conf : Config)
deriving DecidableEq

/-- The flag loop of `parse_args` (arguments after the positional input
path), threading the configuration exactly like the C++ if/else chain. -/
def parse_flags (conf : Config) : List String → ArgParse
  | [] => .ok conf
  | [a] =>
      if a = "--help" ∨ a = "-h" then .help
      else if a = "--case-sensitive" then .ok { conf with case_sensitive := true }
      else .usage
  | a :: v :: rest =>
      if a = "--help" ∨ a = "-h" then .help
      else if a = "--top" then
        match stoul v with
        | .ok n => parse_flags { conf with topN := n } rest
        | _ => .crash
      else if a = "--json" then parse_flags { conf with json_path := v } rest
      else if a = "--case-sensitive" then
        parse_flags { conf with case_sensitive := true } (v :: rest)
      else .usage

/-- `parse_args` over `argv[1..]`: the first argument is unconditionally the
input path (missing means usage error); the rest are flags. -/
def parse_args : List String → ArgParse
  | [] => .usage
  | path :: rest =>
      parse_flags { input_path := path, json_path := "", topN := 20, case_sensitive := false } rest

/-- Observable outcome of one `main` invocation: either an abnormal
termination by an uncaught exception, or a normal exit carrying the exit
code, whether the help text was printed, the report printed to standard
output (if any), and the message printed to standard error (if any). -/
inductive MainOut where
  | aborted
  | exited (code : Nat) (helpShown : Bool) (report : Option Stats) (errMsg : Option String)
deriving DecidableEq

/-- `main`: parse the arguments, analyze the file, print the report, then
optionally export JSON.  The file system is an oracle `fs` from path to
content (`none` = cannot open), the ctype tables of the locale installed by
`setlocale(LC_ALL, "")` are `loc`, the size query an oracle `sizeQ`, and
JSON writability an oracle `jsonOk`.  An analysis failure is caught and
reported with an `Error: ` prefix on standard error and exit code 2, before
any report is printed. -/
def runMain (args : List String) (fs : String → Option (List Nat)) (loc : CharClass)
    (sizeQ : Option Nat) (jsonOk : Bool) : MainOut :=
  match parse_args args with
  | .help => .exited 0 true none none
  | .usage => .exited 1 true none none
  | .crash => .aborted
  | .ok conf =>
      match fs conf.input_path with
      | none =>
          .exited 2 false none (some ("Error: " ++ ("Cannot open input file: " ++ conf.input_path)))
      | some content =>
          let st := analyze_file content loc conf.case_sensitive sizeQ
          if conf.json_path ≠ "" ∧ jsonOk = false then
            .exited 2 false (some st)
              (some ("Error: " ++ ("Cannot write JSON file: " ++ conf.json_path)))
          else
            .exited 0 false (some st) none

/-! ### Order lemmas for the byte-lexicographic word order -/

theorem wordLt_irrefl (a : List Nat) : wordLt a a = false := by
  induction a with
  | nil => rfl
  | cons x xs ih => simp [wordLt, ih]

theorem wordLt_trichotomy (a b : List Nat) :
    wordLt a b = true ∨ wordLt b a = true ∨ a = b := by
  induction a generalizing b with
  | nil => cases b <;> simp [wordLt]
  | cons x xs ih =>
    cases b with
    | nil => simp [wordLt]
    | cons y ys =>
      rcases Nat.lt_trichotomy x y with h | h | h
      · left; simp [wordLt, h]
      · subst h
        rcases ih ys with h2 | h2 | h2
        · left; simp [wordLt, h2]
        · right; left; simp [wordLt, h2]
        · right; right; rw [h2]
      · right; left; simp [wordLt, h]

theorem wordLt_asymm {a b : List Nat} (h : wordLt a b = true) : wordLt b a = false := by
  induction a generalizing b with
  | nil =>
    cases b with
    | nil => simpa [wordLt] using h
    | cons y ys => simp [wordLt]
  | cons x xs ih =>
    cases b with
    | nil => simp [wordLt] at h
    | cons y ys =>
      rcases Nat.lt_trichotomy x y with h1 | h1 | h1
      · simp [wordLt, h1, Nat.lt_asymm h1]
      · subst h1
        simp only [wordLt, Nat.lt_irrefl, if_false] at h ⊢
        exact ih h
      · simp [wordLt, h1, Nat.lt_asymm h1] at h

theorem wordLt_trans {a b c : List Nat} (h1 : wordLt a b = true) (h2 : wordLt b c = true) :
    wordLt a c = true := by
  induction a generalizing b c with
  | nil =>
    cases c with
    | nil =>
      cases b with
      | nil => exact h2
      | cons y ys => simp [wordLt] at h2
    | cons z zs => simp [wordLt]
  | cons x xs ih =>
    cases b with
    | nil => simp [wordLt] at h1
    | cons y ys =>
      cases c with
      | nil => simp [wordLt] at h2
      | cons z zs =>
        rcases Nat.lt_trichotomy x y with hxy | hxy | hxy
        · rcases Nat.lt_trichotomy y z with hyz | hyz | hyz
          · simp [wordLt, Nat.lt_trans hxy hyz]
          · subst hyz; simp [wordLt, hxy]
          · simp [wordLt, hyz, Nat.lt_asymm hyz] at h2
        · subst hxy
          rcases Nat.lt_trichotomy x z with hyz | hyz | hyz
          · simp [wordLt, hyz]
          · subst hyz
            simp only [wordLt, Nat.lt_irrefl, if_false] at h1 h2 ⊢
            exact ih h1 h2
          · simp [wordLt, hyz, Nat.lt_asymm hyz] at h2
        · simp [wordLt, hxy, Nat.lt_asymm hxy] at h1

theorem wordLt_false_antisymm {a b : List Nat}
    (h1 : wordLt a b = false) (h2 : wordLt b a = false) : a = b := by
  rcases wordLt_trichotomy a b with h | h | h
  · rw [h1] at h; exact absurd h (by simp)
  · rw [h2] at h; exact absurd h (by simp)
  · exact h

theorem wordLt_false_trans {a b c : List Nat}
    (h1 : wordLt b a = false) (h2 : wordLt c b = false) : wordLt c a = false := by
  by_contra hca
  have hca' : wordLt c a = true := by simpa using hca
  rcases wordLt_trichotomy b a with hb | hb | hb
  · rw [h1] at hb; exact absurd hb (by simp)
  · have := wordLt_trans hca' hb
    rw [h2] at this; exact absurd this (by simp)
  · subst hb; rw [h2] at hca'; exact absurd hca' (by simp)

/-! ### The ranking relation is a total, transitive, antisymmetric order -/

theorem rankCmp_eq_false_iff (a b : List Nat × Nat) :
    rankCmp a b = false ↔ a.2 < b.2 ∨ (a.2 = b.2 ∧ wordLt a.1 b.1 = false) := by
  unfold rankCmp
  by_cases h : a.2 = b.2 <;> simp [h] <;> omega

theorem rankLe_iff (a b : List Nat × Nat) :
    rankLe a b ↔ b.2 < a.2 ∨ (b.2 = a.2 ∧ wordLt b.1 a.1 = false) := by
  unfold rankLe
  exact rankCmp_eq_false_iff b a

instance rankLe_total : IsTotal (List Nat × Nat) rankLe := by
  constructor
  intro a b
  rw [rankLe_iff, rankLe_iff]
  rcases Nat.lt_trichotomy a.2 b.2 with h | h | h
  · right; left; exact h
  · rcases wordLt_trichotomy a.1 b.1 with hw | hw | hw
    · left; right; exact ⟨h.symm, wordLt_asymm hw⟩
    · right; right; exact ⟨h, wordLt_asymm hw⟩
    · right; right; exact ⟨h, by rw [hw, wordLt_irrefl]⟩
  · left; left; exact h

instance rankLe_trans_inst : IsTrans (List Nat × Nat) rankLe := by
  constructor
  intro a b c h1 h2
  rw [rankLe_iff] at h1 h2 ⊢
  rcases h1 with h1 | ⟨h1e, h1w⟩
  · rcases h2 with h2 | ⟨h2e, h2w⟩
    · left; omega
    · left; omega
  · rcases h2 with h2 | ⟨h2e, h2w⟩
    · left; omega
    · right; exact ⟨by omega, wordLt_false_trans h1w h2w⟩

instance rankLe_antisymm : IsAntisymm (List Nat × Nat) rankLe := by
  constructor
  intro a b h1 h2
  rw [rankLe_iff] at h1 h2
  have hc : a.2 = b.2 := by omega
  have hw : a.1 = b.1 := by
    rcases h1 with h1 | ⟨_, h1w⟩
    · omega
    · rcases h2 with h2 | ⟨_, h2w⟩
      · omega
      · exact wordLt_false_antisymm h2w h1w
  exact Prod.ext hw hc

/-! ### Correspondence between the stateful scan and per-line token lists -/

theorem scanLine_eq (loc : CharClass) (cs : Bool) (line : List Nat) :
    ∀ (token : List Nat) (st : ScanSt),
    scanLine loc cs line token st =
      ⟨st.words + (tokensAux loc cs line token).length,
       List.foldl bump st.freq (tokensAux loc cs line token)⟩ := by
  induction line with
  | nil =>
    intro token st
    by_cases h : token = [] <;> simp [scanLine, tokensAux, h]
  | cons b rest ih =>
    intro token st
    by_cases hw : is_word_char loc b
    · simp [scanLine, tokensAux, hw, ih]
    · by_cases h : token = [] <;>
        simp [scanLine, tokensAux, hw, h, ih, Nat.add_assoc, Nat.add_comm 1]

theorem analyze_lines_eq (loc : CharClass) (cs : Bool) (ls : List (List Nat)) :
    ∀ st : ScanSt,
    analyze_lines loc cs ls st =
      ⟨st.words + ((ls.map (tokens loc cs)).join).length,
       List.foldl bump st.freq ((ls.map (tokens loc cs)).join)⟩ := by
  induction ls with
  | nil => intro st; simp [analyze_lines]
  | cons l ls ih =>
    intro st
    simp [analyze_lines, ih, scanLine_eq, tokens, List.foldl_append, Nat.add_assoc]

/-- All tokens of a file, line by line. -/
def allTokens (loc : CharClass) (cs : Bool) (content : List Nat) : List (List Nat) :=
  ((splitLines content).map (tokens loc cs)).join

theorem analyze_file_words (content : List Nat) (loc : CharClass) (cs : Bool) (q : Option Nat) :
    (analyze_file content loc cs q).words = (allTokens loc cs content).length := by
  simp [analyze_file, analyze_lines_eq, allTokens]

theorem analyze_file_freq (content : List Nat) (loc : CharClass) (cs : Bool) (q : Option Nat) :
    (analyze_file content loc cs q).freq = List.foldl bump [] (allTokens loc cs content) := by
  simp [analyze_file, analyze_lines_eq, allTokens]

/-! ### The sum of frequency counts tracks the number of flushed tokens -/

theorem sumCounts_bump (f : List (List Nat × Nat)) (w : List Nat) :
    sumCounts (bump f w) = sumCounts f + 1 := by
  induction f with
  | nil => rfl
  | cons p rest ih =>
    obtain ⟨a, c⟩ := p
    by_cases h : a = w <;> simp [bump, h, sumCounts] at * <;> omega

theorem sumCounts_foldl (ts : List (List Nat)) : ∀ f,
    sumCounts (List.foldl bump f ts) = sumCounts f + ts.length := by
  induction ts with
  | nil => intro f; simp
  | cons t ts ih => intro f; simp [ih, sumCounts_bump]; omega

/-! ### Keys of the frequency table -/

theorem mem_keys_bump (f : List (List Nat × Nat)) (w x : List Nat) :
    x ∈ (bump f w).map Prod.fst ↔ x ∈ f.map Prod.fst ∨ x = w := by
  induction f with
  | nil => simp [bump]
  | cons p rest ih =>
    obtain ⟨a, c⟩ := p
    by_cases h : a = w <;> simp [bump, h, ih] <;> tauto

theorem nodup_keys_bump (f : List (List Nat × Nat)) (w : List Nat)
    (h : (f.map Prod.fst).Nodup) : ((bump f w).map Prod.fst).Nodup := by
  induction f with
  | nil => simp [bump]
  | cons p rest ih =>
    obtain ⟨a, c⟩ := p
    by_cases hw : a = w
    · simpa [bump, hw] using h
    · simp only [List.map_cons, List.nodup_cons] at h
      simp only [bump, hw, if_false, List.map_cons, List.nodup_cons]
      constructor
      · intro hx
        rcases (mem_keys_bump rest w a).mp hx with h1 | h1
        · exact h.1 h1
        · exact hw h1
      · exact ih h.2

theorem mem_keys_foldl (ts : List (List Nat)) : ∀ (f : List (List Nat × Nat)) (x : List Nat),
    x ∈ (List.foldl bump f ts).map Prod.fst ↔ x ∈ f.map Prod.fst ∨ x ∈ ts := by
  induction ts with
  | nil => intro f x; simp
  | cons t ts ih =>
    intro f x
    rw [List.foldl_cons, ih, mem_keys_bump, List.mem_cons]
    tauto

theorem nodup_keys_foldl (ts : List (List Nat)) : ∀ f : List (List Nat × Nat),
    (f.map Prod.fst).Nodup → ((List.foldl bump f ts).map Prod.fst).Nodup := by
  induction ts with
  | nil => intro f h; simpa using h
  | cons t ts ih => intro f h; exact ih _ (nodup_keys_bump f t h)

theorem length_foldl_bump (ts : List (List Nat)) :
    (List.foldl bump [] ts).length = ts.toFinset.card := by
  have hn : ((List.foldl bump ([] : List (List Nat × Nat)) ts).map Prod.fst).Nodup :=
    nodup_keys_foldl ts [] (by simp)
  have hm : ∀ x, x ∈ (List.foldl bump ([] : List (List Nat × Nat)) ts).map Prod.fst ↔ x ∈ ts := by
    intro x; rw [mem_keys_foldl]; simp
  calc (List.foldl bump ([] : List (List Nat × Nat)) ts).length
      = ((List.foldl bump ([] : List (List Nat × Nat)) ts).map Prod.fst).length := by
        rw [List.length_map]
    _ = ((List.foldl bump ([] : List (List Nat × Nat)) ts).map Prod.fst).toFinset.card :=
        (List.toFinset_card_of_nodup hn).symm
    _ = ts.toFinset.card := by
        congr 1
        ext x
        simp only [List.mem_toFinset]
        exact hm x

/-! ### Case-insensitive scanning folds the case-sensitive tokens -/

theorem tokensAux_fold (loc : CharClass) (line : List Nat) : ∀ token : List Nat,
    tokensAux loc false line (token.map loc.tolower) =
      (tokensAux loc true line token).map (List.map loc.tolower) := by
  induction line with
  | nil =>
    intro token
    by_cases h : token = [] <;> simp [tokensAux, h]
  | cons b rest ih =>
    intro token
    by_cases hw : is_word_char loc b
    · have hmap : token.map loc.tolower ++ [fold_char loc false b] =
          (token ++ [fold_char loc true b]).map loc.tolower := by
        simp [fold_char]
      simp only [tokensAux, hw, if_true, hmap, ih (token ++ [fold_char loc true b])]
    · have ihnil : tokensAux loc false rest []
          = (tokensAux loc true rest []).map (List.map loc.tolower) := by
        simpa using ih []
      by_cases h : token = [] <;> simp [tokensAux, hw, h, ih, ihnil]

theorem tokens_fold (loc : CharClass) (line : List Nat) :
    tokens loc false line = (tokens loc true line).map (List.map loc.tolower) :=
  tokensAux_fold loc line []

theorem allTokens_fold (loc : CharClass) (content : List Nat) :
    allTokens loc false content = (allTokens loc true content).map (List.map loc.tolower) := by
  unfold allTokens
  rw [List.map_join]
  congr 1
  rw [List.map_map]
  exact List.map_congr_left fun l _ => tokens_fold loc l

theorem toFinset_map_card_le (ts : List (List Nat)) (g : List Nat → List Nat) :
    (ts.map g).toFinset.card ≤ ts.toFinset.card := by
  have h : (ts.map g).toFinset = ts.toFinset.image g := by
    ext x
    simp
  rw [h]
  exact Finset.card_image_le

/-! ### The binary fallback reads exactly the file length -/

theorem readAllBytes_length (l : List Nat) : readAllBytes l = l.length := by
  induction l using readAllBytes.induct with
  | case1 => rw [readAllBytes]; rfl
  | case2 b rest ih =>
    rw [readAllBytes]
    rw [ih]
    simp [List.length_drop]
    omega

theorem rankLe_ne_strict {a b : List Nat × Nat} (h : rankLe a b) (hne : a.1 ≠ b.1) :
    rankStrict a b := by
  rw [rankLe_iff] at h
  rcases h with h | ⟨he, hw⟩
  · exact Or.inl h
  · right
    refine ⟨he.symm, ?_⟩
    rcases wordLt_trichotomy a.1 b.1 with h1 | h1 | h1
    · exact h1
    · rw [hw] at h1; exact absurd h1 (by simp)
    · exact absurd h1 hne

/-- C1: for every frequency table (whose keys are unique, as guaranteed by
the hash map) and every requested count `k`, the top-k selector returns an
ordered sequence of at most `k` (word, count) pairs sorted by count
descending with ties broken by word ascending in byte-lexicographic order;
if `k` is at least the number of distinct words it returns all entries
fully ranked, and on the empty table it returns the empty sequence. -/
theorem top_k_ranking (freq : List (List Nat × Nat)) (k : Nat)
    (hn : (freq.map Prod.fst).Nodup) :
    (top_k freq k).length = min k freq.length ∧
    (top_k freq k).Pairwise rankStrict ∧
    (freq.length ≤ k → (top_k freq k).Perm freq) ∧
    (freq = [] → top_k freq k = []) := by
  have hperm := List.perm_insertionSort rankLe freq
  have hsorted := List.sorted_insertionSort rankLe freq
  have hkeys : ((List.insertionSort rankLe freq).map Prod.fst).Nodup :=
    ((hperm.map Prod.fst).nodup_iff).mpr hn
  have hne : (List.insertionSort rankLe freq).Pairwise (fun a b => a.1 ≠ b.1) :=
    List.pairwise_map.mp hkeys
  have hstrict : (List.insertionSort rankLe freq).Pairwise rankStrict :=
    (hsorted.and hne).imp fun hab => rankLe_ne_strict hab.1 hab.2
  refine ⟨?_, ?_, ?_, ?_⟩
  · rw [top_k, List.length_take, hperm.length_eq]
  · exact List.Pairwise.sublist (List.take_sublist _ _) hstrict
  · intro hk
    rw [top_k, List.take_of_length_le (by rw [hperm.length_eq]; exact hk)]
    exact hperm
  · intro hf
    subst hf
    simp [top_k]

theorem top_k_ranking_witness :
    (([([97], 2), ([98], 1)].map Prod.fst).Nodup) ∧
    ((top_k [([97], 2), ([98], 1)] 1).length = min 1 [([97], 2), ([98], 1)].length ∧
      (top_k [([97], 2), ([98], 1)] 1).Pairwise rankStrict ∧
      ([([97], 2), ([98], 1)].length ≤ 1 → (top_k [([97], 2), ([98], 1)] 1).Perm [([97], 2), ([98], 1)]) ∧
      (([([97], 2), ([98], 1)] : List (List Nat × Nat)) = [] → top_k [([97], 2), ([98], 1)] 1 = [])) :=
  ⟨by decide, top_k_ranking [([97], 2), ([98], 1)] 1 (by decide)⟩

set_option maxRecDepth 4096 in
/-- C2 (evaluating the code at the failing input): the classification the
claim describes holds exactly under the default "C" locale — on every byte,
`std::isalnum` then agrees with the spec's ASCII letter-or-digit predicate —
but the program installs the environment's locale via
`setlocale(LC_ALL, "")` before analyzing, and under a reachable 8-bit
environment locale such as ISO-8859-1 the non-ASCII byte 0xE4 is classified
as a word character, not as the separator the claim requires. -/
theorem word_char_locale_dependent :
    (∀ b : Fin 256, is_word_char ctypeC b.val = specWordChar b.val) ∧
    is_word_char ctypeLatin1 228 = true ∧
    specWordChar 228 = false := by
  refine ⟨by decide, by decide, by decide⟩

/-- C3: tokens are computed line by line and never joined across a line
boundary: the word total is the sum over the lines of each line's own token
count, and the frequency table is folded from the concatenation of the
per-line token lists.  Concretely, the file "Hello hello WORLD\nworld
world\n" in case-insensitive mode with top 2 yields 2 lines, 5 words, and
top words world:3, hello:2 (the scenario is pure ASCII and is evaluated
under the default-locale tables). -/
theorem tokens_line_local (content : List Nat) (loc : CharClass) (cs : Bool) (q : Option Nat) :
    ((analyze_file content loc cs q).words
        = (((splitLines content).map (tokens loc cs)).map List.length).sum ∧
      (analyze_file content loc cs q).freq
        = List.foldl bump [] (((splitLines content).map (tokens loc cs)).join)) ∧
    ((analyze_file (strBytes ("Hello hello WORLD\nworld world\n")) ctypeC false (some 30)).lines = 2 ∧
      (analyze_file (strBytes ("Hello hello WORLD\nworld world\n")) ctypeC false (some 30)).words = 5 ∧
      top_k (analyze_file (strBytes ("Hello hello WORLD\nworld world\n")) ctypeC false (some 30)).freq 2
        = [(strBytes ("world"), 3), (strBytes ("hello"), 2)]) := by
  refine ⟨⟨?_, analyze_file_freq content loc cs q⟩, by decide⟩
  rw [analyze_file_words]
  unfold allTokens
  rw [List.length_join]

/-- C4: the aggregate word count always equals the sum of the counts stored
in the frequency table (every token flush increments both in lockstep). -/
theorem words_eq_freq_sum (content : List Nat) (loc : CharClass) (cs : Bool) (q : Option Nat) :
    (analyze_file content loc cs q).words
      = sumCounts (analyze_file content loc cs q).freq := by
  rw [analyze_file_words, analyze_file_freq, sumCounts_foldl]
  simp [sumCounts]

/-- C5: case-insensitive and case-sensitive analysis of the same content
yield identical total word counts, and the case-insensitive run never has
more distinct tokens than the case-sensitive run. -/
theorem case_mode_words_and_distinct (content : List Nat) (loc : CharClass)
    (q1 q2 : Option Nat) :
    (analyze_file content loc false q1).words = (analyze_file content loc true q2).words ∧
    (analyze_file content loc false q1).freq.length
      ≤ (analyze_file content loc true q2).freq.length := by
  constructor
  · rw [analyze_file_words, analyze_file_words, allTokens_fold, List.length_map]
  · rw [analyze_file_freq, analyze_file_freq, length_foldl_bump, length_foldl_bump,
      allTokens_fold]
    exact toFinset_map_card_le _ _

/-- C6: for requested counts `k1 < k2`, the first `k1` entries of the top-k2
output equal the whole top-k1 output (the ranking is stable under `k`). -/
theorem top_k_stable_take (freq : List (List Nat × Nat)) (k1 k2 : Nat) (h : k1 < k2) :
    (top_k freq k2).take k1 = top_k freq k1 := by
  unfold top_k
  rw [List.take_take, min_eq_left (Nat.le_of_lt h)]

theorem top_k_stable_take_witness :
    1 < 2 ∧ (top_k [([97], 1)] 2).take 1 = top_k [([97], 1)] 1 :=
  ⟨by decide, top_k_stable_take [([97], 1)] 1 2 (by decide)⟩

/-- C7: the reported byte count is the exact byte length of the file content
(terminator bytes and trailing bytes included), whether the metadata size
query succeeds (it then reports the true size) or fails (the binary-mode
re-read then sums exactly the content's bytes); an empty file reports 0. -/
theorem bytes_exact_size (content : List Nat) (q : Option Nat)
    (hq : ∀ n, q = some n → n = content.length) (loc : CharClass) (cs : Bool) :
    (analyze_file content loc cs q).bytes = content.length ∧
    (content = [] → (analyze_file content loc cs q).bytes = 0) := by
  have hb : (analyze_file content loc cs q).bytes = file_size_bytes content q := rfl
  have hmain : file_size_bytes content q = content.length := by
    cases q with
    | none => simp [file_size_bytes, readAllBytes_length]
    | some n => simp [file_size_bytes, hq n rfl]
  refine ⟨hb.trans hmain, fun hc => ?_⟩
  rw [hb, hmain, hc]
  rfl

theorem bytes_exact_size_witness :
    (∀ n : Nat, (none : Option Nat) = some n → n = [72].length) ∧
    ((analyze_file [72] ctypeC false none).bytes = [72].length ∧
      ([72] = ([] : List Nat) → (analyze_file [72] ctypeC false none).bytes = 0)) :=
  ⟨fun n h => Option.noConfusion h,
    bytes_exact_size [72] none (fun n h => Option.noConfusion h) ctypeC false⟩

/-- C8: an input path the file system cannot open is not a usage error (the
parser accepts it unchanged); the run fails during analysis with exit code
2, a standard-error message prefixed with `Error: ` naming the path, and no
report on standard output. -/
theorem unreadable_input_io_error (path : String) (fs : String → Option (List Nat))
    (loc : CharClass) (q : Option Nat) (j : Bool) (hfs : fs path = none) :
    parse_args [path] = ArgParse.ok ⟨path, "", 20, false⟩ ∧
    runMain [path] fs loc q j
      = MainOut.exited 2 false none (some ("Error: " ++ ("Cannot open input file: " ++ path))) := by
  have hp : parse_args [path] = ArgParse.ok ⟨path, "", 20, false⟩ := rfl
  refine ⟨hp, ?_⟩
  unfold runMain
  rw [hp]
  simp [hfs]

theorem unreadable_input_io_error_witness :
    ((fun _ : String => (none : Option (List Nat))) "missing.txt" = none) ∧
    (parse_args ["missing.txt"] = ArgParse.ok ⟨"missing.txt", "", 20, false⟩ ∧
      runMain ["missing.txt"] (fun _ => none) ctypeC none false
        = MainOut.exited 2 false none
            (some ("Error: " ++ ("Cannot open input file: " ++ "missing.txt")))) :=
  ⟨rfl, unreadable_input_io_error "missing.txt" (fun _ => none) ctypeC none false rfl⟩

/-- C9 (evaluating the code at the failing input): a non-numeric `--top`
value makes `std::stoul` raise `invalid_argument`, which is uncaught because
`parse_args` runs before main's try block, so the process terminates
abnormally instead of reporting the claimed usage error with help text and
exit code 1.  A `--top` that is missing its value is indeed a usage error,
while a negative value such as -5 is accepted by unsigned wrap-around
instead of being rejected. -/
theorem top_flag_nonnumeric_crashes :
    parse_args ["f.txt", "--top", "abc"] = ArgParse.crash ∧
    (∀ fs loc q j, runMain ["f.txt", "--top", "abc"] fs loc q j = MainOut.aborted) ∧
    parse_args ["f.txt", "--top"] = ArgParse.usage ∧
    parse_args ["f.txt", "--top", "-5"]
      = ArgParse.ok ⟨"f.txt", "", 2 ^ 64 - 5, false⟩ :=
  ⟨by decide, fun _ _ _ _ => rfl, by decide, by decide⟩

/-- C10: the top-k selector depends only on the set of map entries, not on
the hash map's iteration order: permuting the entry list leaves the output
unchanged, and the output length is exactly the minimum of `k` and the
number of distinct words. -/
theorem top_k_order_independent (e1 e2 : List (List Nat × Nat)) (k : Nat)
    (hp : e1.Perm e2) (hn : (e1.map Prod.fst).Nodup) :
    top_k e1 k = top_k e2 k ∧
    (top_k e1 k).length = min k (e1.map Prod.fst).toFinset.card := by
  have hs1 := List.sorted_insertionSort rankLe e1
  have hs2 := List.sorted_insertionSort rankLe e2
  have hpp : (List.insertionSort rankLe e1).Perm (List.insertionSort rankLe e2) :=
    (List.perm_insertionSort rankLe e1).trans (hp.trans (List.perm_insertionSort rankLe e2).symm)
  have heq : List.insertionSort rankLe e1 = List.insertionSort rankLe e2 :=
    List.eq_of_perm_of_sorted hpp hs1 hs2
  constructor
  · unfold top_k
    rw [heq]
  · have h1 : (List.insertionSort rankLe e1).length = e1.length :=
      (List.perm_insertionSort rankLe e1).length_eq
    have h2 : (e1.map Prod.fst).toFinset.card = e1.length := by
      rw [List.toFinset_card_of_nodup hn, List.length_map]
    rw [top_k, List.length_take, h1, h2]

theorem top_k_order_independent_witness :
    (([([97], 1), ([98], 2)] : List (List Nat × Nat)).Perm [([98], 2), ([97], 1)] ∧
      (([([97], 1), ([98], 2)] : List (List Nat × Nat)).map Prod.fst).Nodup) ∧
    (top_k [([97], 1), ([98], 2)] 1 = top_k [([98], 2), ([97], 1)] 1 ∧
      (top_k [([97], 1), ([98], 2)] 1).length
        = min 1 (([([97], 1), ([98], 2)] : List (List Nat × Nat)).map Prod.fst).toFinset.card) :=
  ⟨⟨by decide, by decide⟩, top_k_order_independent _ _ 1 (by decide) (by decide)⟩
